import Mathlib

/-!
Verification development for the CuraEngine support-area synthesis core
(`AreaSupport` in `src/support.h`).  Only the interface and its documentation
are available in the repository sources, so the component bodies are modelled
from the specification (spec.md): polygon sets over fixed-point integer
coordinates are embedded as finite sets of grid points, and the geometry
kernel's union/difference/offset operations as set union, set difference and
morphological dilation/erosion by square structuring elements.
-/

namespace CuraSupport

/-- A fixed-point integer coordinate in the plane. -/
abbrev Pt : Type := ℤ × ℤ

/-- Modelled from the spec: a "polygon set" value (closed planar contours in
fixed-point integer coordinates) is embedded as the finite set of grid points
it covers. -/
abbrev Polygons : Type := Finset Pt

/-- Chebyshev distance between two grid points. -/
def distInf (p q : Pt) : ℕ := max (p.1 - q.1).natAbs (p.2 - q.2).natAbs

/-- The square structuring element of radius `r` used to model offsets. -/
def ball (r : ℕ) : Finset Pt := Finset.Icc (-(r : ℤ), -(r : ℤ)) ((r : ℤ), (r : ℤ))

/-- Modelled from the spec: the geometry kernel's outward offset by `r`
(missing from src; only declared in support.h) as Minkowski dilation. -/
def dilate (A : Polygons) (r : ℕ) : Polygons :=
  A.biUnion (fun p => (ball r).image (fun q => p + q))

/-- Modelled from the spec: the geometry kernel's inward offset by `r`
(missing from src) as morphological erosion. -/
def erode (A : Polygons) (r : ℕ) : Polygons :=
  A.filter (fun p => ∀ q ∈ ball r, p + q ∈ A)

/-- Closing: outward offset then inward offset by the same amount. -/
def closing (A : Polygons) (r : ℕ) : Polygons := erode (dilate A r) r

/-- Opening: inward offset then outward offset by the same amount. -/
def opening (A : Polygons) (r : ℕ) : Polygons := dilate (erode A r) r

/-- Diameter (maximal pairwise Chebyshev distance) of a polygon set; the
model of the "effective diameter" / "minimal enclosing diameter" of a region. -/
def diamD (A : Polygons) : ℕ := (A ×ˢ A).sup (fun pq => distInf pq.1 pq.2)

theorem mem_ball {r : ℕ} {q : Pt} :
    q ∈ ball r ↔ q.1.natAbs ≤ r ∧ q.2.natAbs ≤ r := by
  simp only [ball, Finset.mem_Icc, Prod.le_def]
  omega

theorem zero_mem_ball {r : ℕ} : ((0 : ℤ), (0 : ℤ)) ∈ ball r := by
  simp [mem_ball]

theorem mem_dilate {A : Polygons} {r : ℕ} {x : Pt} :
    x ∈ dilate A r ↔ ∃ p ∈ A, ∃ q ∈ ball r, x = p + q := by
  simp only [dilate, Finset.mem_biUnion, Finset.mem_image]
  constructor
  · rintro ⟨p, hp, q, hq, rfl⟩
    exact ⟨p, hp, q, hq, rfl⟩
  · rintro ⟨p, hp, q, hq, rfl⟩
    exact ⟨p, hp, q, hq, rfl⟩

theorem subset_dilate (A : Polygons) (r : ℕ) : A ⊆ dilate A r := by
  intro p hp
  exact mem_dilate.mpr ⟨p, hp, (0, 0), zero_mem_ball, by simp⟩

theorem dilate_mono {A B : Polygons} (r : ℕ) (h : A ⊆ B) :
    dilate A r ⊆ dilate B r := by
  intro x hx
  rcases mem_dilate.mp hx with ⟨p, hp, q, hq, rfl⟩
  exact mem_dilate.mpr ⟨p, h hp, q, hq, rfl⟩

theorem erode_subset (A : Polygons) (r : ℕ) : erode A r ⊆ A := by
  intro p hp
  exact (Finset.mem_filter.mp hp).1

theorem mem_erode {A : Polygons} {r : ℕ} {p : Pt} :
    p ∈ erode A r ↔ p ∈ A ∧ ∀ q ∈ ball r, p + q ∈ A := by
  simp [erode]

theorem erode_mono {A B : Polygons} (r : ℕ) (h : A ⊆ B) :
    erode A r ⊆ erode B r := by
  intro p hp
  rcases mem_erode.mp hp with ⟨hpA, hball⟩
  exact mem_erode.mpr ⟨h hpA, fun q hq => h (hball q hq)⟩

theorem subset_closing (A : Polygons) (r : ℕ) : A ⊆ closing A r := by
  intro p hp
  refine mem_erode.mpr ⟨subset_dilate A r hp, fun q hq => ?_⟩
  exact mem_dilate.mpr ⟨p, hp, q, hq, rfl⟩

theorem closing_subset_dilate (A : Polygons) (r : ℕ) :
    closing A r ⊆ dilate A r := erode_subset _ _

theorem closing_mono {A B : Polygons} (r : ℕ) (h : A ⊆ B) :
    closing A r ⊆ closing B r := erode_mono r (dilate_mono r h)

theorem opening_subset (A : Polygons) (r : ℕ) : opening A r ⊆ A := by
  intro x hx
  rcases mem_dilate.mp hx with ⟨p, hp, q, hq, rfl⟩
  exact (mem_erode.mp hp).2 q hq

theorem dilate_zero (A : Polygons) : dilate A 0 = A := by
  ext x
  rw [mem_dilate]
  constructor
  · rintro ⟨p, hp, q, hq, rfl⟩
    have h1 : q.1 = 0 := by have := (mem_ball.mp hq).1; omega
    have h2 : q.2 = 0 := by have := (mem_ball.mp hq).2; omega
    have : q = ((0 : ℤ), (0 : ℤ)) := Prod.ext h1 h2
    subst this
    simpa using hp
  · intro hx
    exact ⟨x, hx, (0, 0), zero_mem_ball, by simp⟩

theorem erode_zero (A : Polygons) : erode A 0 = A := by
  ext p
  rw [mem_erode]
  constructor
  · exact fun h => h.1
  · intro hp
    refine ⟨hp, fun q hq => ?_⟩
    have h1 : q.1 = 0 := by have := (mem_ball.mp hq).1; omega
    have h2 : q.2 = 0 := by have := (mem_ball.mp hq).2; omega
    have : q = ((0 : ℤ), (0 : ℤ)) := Prod.ext h1 h2
    subst this
    simpa using hp

theorem opening_zero (A : Polygons) : opening A 0 = A := by
  rw [opening, erode_zero, dilate_zero]

theorem distInf_le_diamD {A : Polygons} {p q : Pt} (hp : p ∈ A) (hq : q ∈ A) :
    distInf p q ≤ diamD A := by
  have h : (p, q) ∈ A ×ˢ A := Finset.mem_product.mpr ⟨hp, hq⟩
  exact Finset.le_sup (f := fun pq => distInf pq.1 pq.2) h

theorem distInf_self (p : Pt) : distInf p p = 0 := by
  simp [distInf]

theorem distInf_comm (p q : Pt) : distInf p q = distInf q p := by
  simp only [distInf]
  omega

/-- One step of connected-component growth: the points of `A` adjacent
(8-connectivity, Chebyshev distance at most 1) to the current set `S`. -/
def grow (A S : Finset Pt) : Finset Pt :=
  A.filter (fun a => ∃ s ∈ S, distInf a s ≤ 1)

/-- The connected component of `A` containing `p`, computed by saturating
the one-step growth; `A.card` iterations always reach the fixpoint. -/
def reach (A : Finset Pt) (p : Pt) : Finset Pt :=
  (fun S => grow A S)^[A.card] {p}

/-- Modelled from the spec: "splits it into connected components" — the set of
connected components of a polygon set. -/
def components (A : Polygons) : Finset Polygons :=
  A.image (fun p => reach A p)

/-- Two points lie in one connected region of `A`. -/
def Connected (A : Polygons) (p q : Pt) : Prop :=
  p ∈ A ∧ q ∈ reach A p

instance (A : Polygons) (p q : Pt) : Decidable (Connected A p q) := by
  unfold Connected
  infer_instance

theorem grow_subset (A S : Finset Pt) : grow A S ⊆ A := Finset.filter_subset _ _

theorem mem_grow {A S : Finset Pt} {a : Pt} :
    a ∈ grow A S ↔ a ∈ A ∧ ∃ s ∈ S, distInf a s ≤ 1 := by
  simp [grow]

theorem subset_grow {A S : Finset Pt} (h : S ⊆ A) : S ⊆ grow A S := by
  intro s hs
  exact mem_grow.mpr ⟨h hs, s, hs, by simp [distInf_self]⟩

theorem grow_mono {A S T : Finset Pt} (h : S ⊆ T) : grow A S ⊆ grow A T := by
  intro a ha
  rcases mem_grow.mp ha with ⟨haA, s, hs, hd⟩
  exact mem_grow.mpr ⟨haA, s, h hs, hd⟩

theorem iterate_grow_subset {A : Finset Pt} {p : Pt} (hp : p ∈ A) :
    ∀ k, (fun S => grow A S)^[k] {p} ⊆ A := by
  intro k
  cases k with
  | zero => simpa using hp
  | succ n =>
      rw [Function.iterate_succ_apply']
      exact grow_subset _ _

theorem iterate_grow_chain {A : Finset Pt} {p : Pt} (hp : p ∈ A) (k : ℕ) :
    (fun S => grow A S)^[k] {p} ⊆ (fun S => grow A S)^[k + 1] {p} := by
  rw [Function.iterate_succ_apply']
  exact subset_grow (iterate_grow_subset hp k)

theorem iterate_grow_le {A : Finset Pt} {p : Pt} (hp : p ∈ A) {k m : ℕ}
    (h : k ≤ m) :
    (fun S => grow A S)^[k] {p} ⊆ (fun S => grow A S)^[m] {p} := by
  induction m with
  | zero =>
      have hk : k = 0 := Nat.le_zero.mp h
      subst hk
      exact subset_rfl
  | succ n ih =>
      rcases Nat.lt_or_ge k (n + 1) with hlt | hge
      · exact (ih (Nat.lt_succ_iff.mp hlt)).trans (iterate_grow_chain hp n)
      · have hk : k = n + 1 := Nat.le_antisymm h hge
        subst hk
        exact subset_rfl

theorem iterate_grow_card_lower {A : Finset Pt} {p : Pt} (hp : p ∈ A)
    (hstrict : ∀ k ≤ A.card,
      (fun S => grow A S)^[k] {p} ≠ (fun S => grow A S)^[k + 1] {p}) :
    ∀ k ≤ A.card + 1, k + 1 ≤ ((fun S => grow A S)^[k] {p}).card := by
  intro k hk
  induction k with
  | zero => simp
  | succ n ih =>
      have hn : n ≤ A.card := by omega
      have hsub := iterate_grow_chain hp n
      have hne := hstrict n hn
      have hss : (fun S => grow A S)^[n] {p} ⊂ (fun S => grow A S)^[n + 1] {p} :=
        Finset.ssubset_iff_subset_ne.mpr ⟨hsub, hne⟩
      have := Finset.card_lt_card hss
      have hprev := ih (by omega)
      omega

theorem grow_reach {A : Finset Pt} {p : Pt} (hp : p ∈ A) :
    grow A (reach A p) = reach A p := by
  by_cases hfix : ∃ k ≤ A.card,
      (fun S => grow A S)^[k + 1] {p} = (fun S => grow A S)^[k] {p}
  · rcases hfix with ⟨k, hk, hfk⟩
    have hconst : ∀ m, (fun S => grow A S)^[k + m] {p} = (fun S => grow A S)^[k] {p} := by
      intro m
      induction m with
      | zero => rfl
      | succ j ih =>
          have heq : k + (j + 1) = (k + j) + 1 := by omega
          calc (fun S => grow A S)^[k + (j + 1)] {p}
              = (fun S => grow A S) ((fun S => grow A S)^[k + j] {p}) := by
                rw [heq, Function.iterate_succ_apply']
            _ = (fun S => grow A S) ((fun S => grow A S)^[k] {p}) := by rw [ih]
            _ = (fun S => grow A S)^[k + 1] {p} :=
                (Function.iterate_succ_apply' _ _ _).symm
            _ = (fun S => grow A S)^[k] {p} := hfk
    have h1 : reach A p = (fun S => grow A S)^[k] {p} := by
      have := hconst (A.card - k)
      have hkeq : k + (A.card - k) = A.card := by omega
      rw [hkeq] at this
      exact this
    have h2 : (fun S => grow A S)^[A.card + 1] {p} = (fun S => grow A S)^[k] {p} := by
      have := hconst (A.card + 1 - k)
      have hkeq : k + (A.card + 1 - k) = A.card + 1 := by omega
      rw [hkeq] at this
      exact this
    have : grow A (reach A p) = (fun S => grow A S)^[A.card + 1] {p} := by
      rw [Function.iterate_succ_apply']
      rfl
    rw [this, h2, h1]
  · exfalso
    push_neg at hfix
    have hstrict : ∀ k ≤ A.card,
        (fun S => grow A S)^[k] {p} ≠ (fun S => grow A S)^[k + 1] {p} := by
      intro k hk h
      exact hfix k hk h.symm
    have hlower := iterate_grow_card_lower hp hstrict (A.card + 1) (le_refl _)
    have hsub := iterate_grow_subset hp (A.card + 1)
    have := Finset.card_le_card hsub
    omega

theorem reach_subset {A : Finset Pt} {p : Pt} (hp : p ∈ A) : reach A p ⊆ A :=
  iterate_grow_subset hp A.card

theorem mem_reach_self {A : Finset Pt} {p : Pt} (hp : p ∈ A) : p ∈ reach A p := by
  have h0 : p ∈ (fun S => grow A S)^[0] {p} := by simp
  exact iterate_grow_le hp (Nat.zero_le _) h0

theorem reach_closed_step {A : Finset Pt} {p a b : Pt} (hp : p ∈ A)
    (ha : a ∈ reach A p) (hb : b ∈ A) (hd : distInf b a ≤ 1) : b ∈ reach A p := by
  have : b ∈ grow A (reach A p) := mem_grow.mpr ⟨hb, a, ha, hd⟩
  rwa [grow_reach hp] at this

theorem reach_min {A T : Finset Pt} {q : Pt} (hT : grow A T ⊆ T) (hq : q ∈ T) :
    reach A q ⊆ T := by
  have : ∀ k, (fun S => grow A S)^[k] {q} ⊆ T := by
    intro k
    induction k with
    | zero => simpa using hq
    | succ n ih =>
        rw [Function.iterate_succ_apply']
        exact (grow_mono ih).trans hT
  exact this A.card

theorem mem_reach_symm {A : Finset Pt} {p q : Pt} (hp : p ∈ A)
    (hq : q ∈ reach A p) : p ∈ reach A q := by
  have key : ∀ k, ∀ x ∈ (fun S => grow A S)^[k] {p}, p ∈ reach A x := by
    intro k
    induction k with
    | zero =>
        intro x hx
        have : x = p := by simpa using hx
        subst this
        exact mem_reach_self hp
    | succ n ih =>
        intro x hx
        rw [Function.iterate_succ_apply'] at hx
        rcases mem_grow.mp hx with ⟨hxA, s, hs, hd⟩
        have hsA : s ∈ A := iterate_grow_subset hp n hs
        have hps : p ∈ reach A s := ih s hs
        have hsx : s ∈ reach A x :=
          reach_closed_step hxA (mem_reach_self hxA) hsA (by rw [distInf_comm]; exact hd)
        have : reach A s ⊆ reach A x := by
          refine reach_min ?_ hsx
          exact le_of_eq (grow_reach hxA)
        exact this hps
  exact key A.card q hq

theorem reach_eq_of_mem {A : Finset Pt} {p q : Pt} (hp : p ∈ A)
    (hq : q ∈ reach A p) : reach A q = reach A p := by
  have hqA : q ∈ A := reach_subset hp hq
  apply Finset.Subset.antisymm
  · exact reach_min (le_of_eq (grow_reach hp)) hq
  · exact reach_min (le_of_eq (grow_reach hqA)) (mem_reach_symm hp hq)

theorem mem_components {A : Polygons} {C : Polygons} :
    C ∈ components A ↔ ∃ p ∈ A, C = reach A p := by
  simp only [components, Finset.mem_image]
  constructor
  · rintro ⟨p, hp, rfl⟩
    exact ⟨p, hp, rfl⟩
  · rintro ⟨p, hp, rfl⟩
    exact ⟨p, hp, rfl⟩

theorem components_subset {A C : Polygons} (hC : C ∈ components A) : C ⊆ A := by
  rcases mem_components.mp hC with ⟨p, hp, rfl⟩
  exact reach_subset hp

theorem components_biUnion (A : Polygons) : (components A).biUnion id = A := by
  apply Finset.Subset.antisymm
  · intro x hx
    rcases Finset.mem_biUnion.mp hx with ⟨C, hC, hxC⟩
    exact components_subset hC hxC
  · intro x hx
    refine Finset.mem_biUnion.mpr ⟨reach A x, ?_, mem_reach_self hx⟩
    exact mem_components.mpr ⟨x, hx, rfl⟩

theorem reach_row {A : Finset Pt} {a b y : ℤ} (hab : a ≤ b)
    (hall : ∀ x, a ≤ x → x ≤ b → ((x, y) : Pt) ∈ A) :
    ((b, y) : Pt) ∈ reach A ((a, y) : Pt) := by
  have hpA : ((a, y) : Pt) ∈ A := hall a le_rfl hab
  have key : ∀ n : ℕ, ∀ x : ℤ, x = a + n → x ≤ b →
      ((x, y) : Pt) ∈ reach A ((a, y) : Pt) := by
    intro n
    induction n with
    | zero =>
        intro x hx _
        have : x = a := by omega
        subst this
        exact mem_reach_self hpA
    | succ m ih =>
        intro x hx hxb
        have hxA : ((x, y) : Pt) ∈ A := hall x (by omega) hxb
        have hprev : ((a + (m : ℤ), y) : Pt) ∈ reach A ((a, y) : Pt) := by
          refine ih (a + (m : ℤ)) rfl (by omega)
        refine reach_closed_step hpA hprev hxA ?_
        have hx1 : x = a + (m : ℤ) + 1 := by omega
        simp only [distInf]
        apply max_le
        · show (x - (a + (m : ℤ))).natAbs ≤ 1
          omega
        · show (y - y).natAbs ≤ 1
          omega
  exact key (b - a).toNat b (by omega) le_rfl

theorem reach_col {A : Finset Pt} {a b x : ℤ} (hab : a ≤ b)
    (hall : ∀ y, a ≤ y → y ≤ b → ((x, y) : Pt) ∈ A) :
    ((x, b) : Pt) ∈ reach A ((x, a) : Pt) := by
  have hpA : ((x, a) : Pt) ∈ A := hall a le_rfl hab
  have key : ∀ n : ℕ, ∀ y : ℤ, y = a + n → y ≤ b →
      ((x, y) : Pt) ∈ reach A ((x, a) : Pt) := by
    intro n
    induction n with
    | zero =>
        intro y hy _
        have : y = a := by omega
        subst this
        exact mem_reach_self hpA
    | succ m ih =>
        intro y hy hyb
        have hyA : ((x, y) : Pt) ∈ A := hall y (by omega) hyb
        have hprev : ((x, a + (m : ℤ)) : Pt) ∈ reach A ((x, a) : Pt) := by
          refine ih (a + (m : ℤ)) rfl (by omega)
        refine reach_closed_step hpA hprev hyA ?_
        have hy1 : y = a + (m : ℤ) + 1 := by omega
        simp only [distInf]
        apply max_le
        · show (x - x).natAbs ≤ 1
          omega
        · show (y - (a + (m : ℤ))).natAbs ≤ 1
          omega
  exact key (b - a).toNat b (by omega) le_rfl

/-- Modelled from the spec (§6): the configuration consumed by the support
core, after validation/clamping.  All lengths are nonnegative fixed-point
distances, all layer counts are natural numbers. -/
structure Config where
  maxDistFromLowerLayer : ℕ
  supportMinAreaSqrt : ℕ
  supportJoinDistance : ℕ
  smoothingDistance : ℕ
  minSmoothingArea : ℕ
  conicalSupport : Bool
  conicalSupportOffset : ℕ
  conicalSmallestBreadth : ℕ
  layerZdistanceBottom : ℕ
  bottomStairStepLayerCount : ℕ
  supportBottomStairStepWidth : ℕ
  towerRoofExpansionDistance : ℕ
  supportTowerDiameter : ℕ
  zLayerDistanceTower : ℕ
deriving DecidableEq

/-- Modelled from the spec (§6, §7): the externally supplied, unvalidated
configuration, which may contain out-of-range (e.g. negative) values. -/
structure RawConfig where
  maxDistFromLowerLayer : ℤ
  supportMinAreaSqrt : ℤ
  supportJoinDistance : ℤ
  smoothingDistance : ℤ
  minSmoothingArea : ℤ
  conicalSupport : Bool
  conicalSupportOffset : ℤ
  conicalSmallestBreadth : ℤ
  layerZdistanceBottom : ℤ
  bottomStairStepLayerCount : ℤ
  supportBottomStairStepWidth : ℤ
  towerRoofExpansionDistance : ℤ
  supportTowerDiameter : ℤ
  zLayerDistanceTower : ℤ
deriving DecidableEq

/-- Modelled from the spec (§7): out-of-range configuration is clamped to the
nearest sane bound rather than causing failure: negative lengths become 0, a
non-positive minimum feature size or stair step layer count becomes 1, and a
conical smallest-breadth larger than the tower diameter is clamped down to it. -/
def sanitize (raw : RawConfig) : Config where
  maxDistFromLowerLayer := raw.maxDistFromLowerLayer.toNat
  supportMinAreaSqrt := max 1 raw.supportMinAreaSqrt.toNat
  supportJoinDistance := raw.supportJoinDistance.toNat
  smoothingDistance := raw.smoothingDistance.toNat
  minSmoothingArea := raw.minSmoothingArea.toNat
  conicalSupport := raw.conicalSupport
  conicalSupportOffset := raw.conicalSupportOffset.toNat
  conicalSmallestBreadth :=
    min raw.conicalSmallestBreadth.toNat raw.supportTowerDiameter.toNat
  layerZdistanceBottom := raw.layerZdistanceBottom.toNat
  bottomStairStepLayerCount := max 1 raw.bottomStairStepLayerCount.toNat
  supportBottomStairStepWidth := raw.supportBottomStairStepWidth.toNat
  towerRoofExpansionDistance := raw.towerRoofExpansionDistance.toNat
  supportTowerDiameter := raw.supportTowerDiameter.toNat
  zLayerDistanceTower := raw.zLayerDistanceTower.toNat

/-- The range conditions a sane configuration satisfies. -/
def Sane (c : Config) : Prop :=
  1 ≤ c.supportMinAreaSqrt ∧ 1 ≤ c.bottomStairStepLayerCount ∧
    c.conicalSmallestBreadth ≤ c.supportTowerDiameter

/-- Re-read a sane configuration as raw input. -/
def embedConfig (c : Config) : RawConfig where
  maxDistFromLowerLayer := c.maxDistFromLowerLayer
  supportMinAreaSqrt := c.supportMinAreaSqrt
  supportJoinDistance := c.supportJoinDistance
  smoothingDistance := c.smoothingDistance
  minSmoothingArea := c.minSmoothingArea
  conicalSupport := c.conicalSupport
  conicalSupportOffset := c.conicalSupportOffset
  conicalSmallestBreadth := c.conicalSmallestBreadth
  layerZdistanceBottom := c.layerZdistanceBottom
  bottomStairStepLayerCount := c.bottomStairStepLayerCount
  supportBottomStairStepWidth := c.supportBottomStairStepWidth
  towerRoofExpansionDistance := c.towerRoofExpansionDistance
  supportTowerDiameter := c.supportTowerDiameter
  zLayerDistanceTower := c.zLayerDistanceTower

/-- Modelled from the spec (§3): one mesh of the model outline store — for
each layer the outline polygon set occupied by solid material, plus the
per-mesh flag controlling whether support is generated for it. -/
structure SliceMeshStorage where
  outline : ℕ → Polygons
  supportEnabled : Bool

/-- Modelled from the spec: the slice data storage holding all meshes. -/
structure SliceDataStorage where
  meshes : List SliceMeshStorage

/-- Modelled from the spec (§4.1), body missing from src (only declared in
support.h): the basic overhang of a layer is the part of its outline farther
than `max_dist_from_lower_layer` from the outline of the layer below; the
bottom layer has no overhang. -/
def basicOverhang (o : ℕ → Polygons) (maxDist : ℕ) : ℕ → Polygons
  | 0 => ∅
  | n + 1 => o (n + 1) \ dilate (o n) maxDist

/-- Modelled from the spec (§4.1): the full overhang extends the basic
overhang toward the border of the layer below. -/
def fullOverhang (o : ℕ → Polygons) (maxDist : ℕ) : ℕ → Polygons
  | 0 => ∅
  | n + 1 =>
      basicOverhang o maxDist (n + 1) ∪
        (dilate (basicOverhang o maxDist (n + 1)) maxDist ∩ o n)

/-- Modelled from the spec: `AreaSupport::computeBasicAndFullOverhang`
(body missing from src). -/
def computeBasicAndFullOverhang (o : ℕ → Polygons) (maxDist layer_idx : ℕ) :
    Polygons × Polygons :=
  (basicOverhang o maxDist layer_idx, fullOverhang o maxDist layer_idx)

/-- The overhang points of one layer: the connected components of the basic
overhang whose minimal enclosing diameter is below `supportMinAreaSqrt`. -/
def overhangPointsAt (o : ℕ → Polygons) (maxDist minSqrt L : ℕ) : Finset Polygons :=
  (components (basicOverhang o maxDist L)).filter (fun C => diamD C < minSqrt)

/-- Modelled from the spec (§4.1): `AreaSupport::detectOverhangPoints` (body
missing from src) — a single forward pass over all layers recording, ordered
by layer, the small overhang components together with their layer index. -/
def detectOverhangPoints (o : ℕ → Polygons) (maxDist minSqrt layer_count : ℕ) :
    List (ℕ × Finset Polygons) :=
  (List.range layer_count).filterMap (fun L =>
    let ps := overhangPointsAt o maxDist minSqrt L
    if ps.Nonempty then some (L, ps) else none)

/-- Modelled from the spec (§4.3 step 1): conical shrinking of the carried
down support — shrink inward by the conical offset, but never shrink any
connected region whose effective diameter is below `conical_smallest_breadth`. -/
def conicalShrink (up : Polygons) (off breadth : ℕ) : Polygons :=
  (components up).biUnion (fun C => if diamD C < breadth then C else erode C off)

/-- Modelled from the spec (§4.3 step 4): smoothing pass removing boundary
features smaller than the smoothing distance, except where doing so would
remove more than `min_smoothing_area` of a region. -/
def smoothed (A : Polygons) (d minArea : ℕ) : Polygons :=
  (components A).biUnion
    (fun C => if (C \ opening C d).card ≤ minArea then opening C d else C)

/-- Modelled from the spec (§4.3 steps 1-2): the union of the (conically
shrunk, when enabled) carried-down support of the layer above with this
layer's overhang. -/
def joinUnion (supportLayer_up supportLayer_this : Polygons) (cfg : Config) : Polygons :=
  (if cfg.conicalSupport then
      conicalShrink supportLayer_up cfg.conicalSupportOffset cfg.conicalSmallestBreadth
    else supportLayer_up) ∪ supportLayer_this

/-- Modelled from the spec (§4.3): `AreaSupport::join` (body missing from
src) — conical shrink of the layer above, union with this layer's overhang,
closing by the join distance, then smoothing. -/
def join (supportLayer_up supportLayer_this : Polygons) (cfg : Config) : Polygons :=
  smoothed (closing (joinUnion supportLayer_up supportLayer_this cfg) cfg.supportJoinDistance)
    cfg.smoothingDistance cfg.minSmoothingArea

/-- An overhang-point record: origin layer index paired with the small
regions detected there. -/
abbrev OverhangEntry : Type := ℕ × Finset Polygons

/-- Modelled from the spec (§4.2): `AreaSupport::handleTowers` (body missing
from src) — one layer of tower handling.  Every already active roof is offset
outward by the roof expansion distance and unioned into this layer's support;
expanded roofs that reached the target tower diameter are dropped from the
active collection (from here on they are carried as ordinary bulk support);
finally, if the cursor points at an overhang-point record whose activation
layer (origin layer plus `z_layer_distance_tower`) is this layer, its regions
are seeded as new tower roofs and the cursor advances. -/
def handleTowers (supportLayer_this : Polygons) (towerRoofs : Finset Polygons)
    (rem : List OverhangEntry) (layer_idx exp towerD z : ℕ) :
    Polygons × Finset Polygons × List OverhangEntry :=
  let act : Finset Polygons × List OverhangEntry :=
    match rem with
    | [] => (∅, [])
    | e :: rest => if e.1 + z = layer_idx then (e.2, rest) else (∅, e :: rest)
  let expanded := towerRoofs.image (fun r => dilate r exp)
  (supportLayer_this ∪ expanded.sup id,
    expanded.filter (fun r => diamD r < towerD) ∪ act.1,
    act.2)

/-- The largest radius of a square structuring element whose erosion of `C`
is still nonempty: a computable estimate of half the minimal breadth of `C`. -/
def coreRadius (C : Polygons) : ℕ :=
  ((List.range (diamD C + 1)).filter (fun r => (erode C r).Nonempty)).foldr max 0

/-- The breadth (minimal width) estimate of a region. -/
def widthEstimate (C : Polygons) : ℕ := 2 * coreRadius C + 1

/-- A region is a thin wall: elongated at least `supportMinAreaSqrt` but with
breadth below it. -/
def isThin (C : Polygons) (minSqrt : ℕ) : Prop :=
  minSqrt ≤ diamD C + 1 ∧ widthEstimate C < minSqrt

instance (C : Polygons) (minSqrt : ℕ) : Decidable (isThin C minSqrt) := by
  unfold isThin
  infer_instance

/-- The outward offset that widens a thin wall to the strut diameter. -/
def strutOffset (C : Polygons) (towerD : ℕ) : ℕ :=
  (towerD - widthEstimate C + 1) / 2

/-- Modelled from the spec (§4.2): `AreaSupport::handleWallStruts` (body
missing from src) — scan the connected regions of this layer's support and
locally widen the thin elongated ones to the strut diameter, leaving every
other region unchanged. -/
def handleWallStruts (supportLayer_this : Polygons) (minSqrt towerD : ℕ) :
    Polygons :=
  (components supportLayer_this).biUnion
    (fun C => if isThin C minSqrt then dilate C (strutOffset C towerD) else C)

/-- The top layer of the stair tread containing layer `L`. -/
def treadTop (step L : ℕ) : ℕ := L - L % step + (step - 1)

/-- Modelled from the spec (§4.4): the region removed from the support of
layer `L` by bottom clearance and stair-stepping — always the model outline
at `L + layerZdistanceBottom`; on top of that, the stair tread (the model
outline sampled at the tread's top layer) provided it stays within the
configured tread width; where it would exceed that width, the upper half of
the tread keeps the stair geometry and the lower half conforms to the model. -/
def handleBottomRemoved (o : ℕ → Polygons) (zB step w L : ℕ) : Polygons :=
  let base := o (L + zB)
  let stair := o (treadTop step L + zB)
  base ∪
    (if stair ⊆ dilate base w then stair
     else if step / 2 ≤ L % step then stair else ∅)

/-- Modelled from the spec (§4.4): `AreaSupport::handleBottom` (body missing
from src) — cut the bottom clearance and stair steps out of this layer's
support. -/
def handleBottom (o : ℕ → Polygons) (supportLayer_this : Polygons)
    (layer_idx zB step w : ℕ) : Polygons :=
  supportLayer_this \ handleBottomRemoved o zB step w layer_idx

/-- The per-mesh working state threaded through the top-down sweep: the
finalized support of the layer above, the active tower roofs, and the not yet
consumed suffix of the overhang-point list (the cursor), kept in descending
activation-layer order. -/
structure SweepState where
  supportAbove : Polygons
  towerRoofs : Finset Polygons
  overhangRemaining : List OverhangEntry
deriving DecidableEq

/-- The initial sweep state: no support above the top layer, no active
roofs, and the cursor placed on the overhang point with the highest
activation layer that the sweep can reach. -/
def initState (ohs : List OverhangEntry) (z lc : ℕ) : SweepState :=
  ⟨∅, ∅, (ohs.filter (fun e => e.1 + z < lc)).reverse⟩

/-- Modelled from the spec (§4.6): one step of the per-mesh top-down sweep —
compute this layer's overhang, `join` it with the carried-down support, then
`handleTowers`, then `handleWallStruts`, then `handleBottom`; the result is
this layer's finalized support and the next iteration's carried state. -/
def layerStep (o : ℕ → Polygons) (cfg : Config) (L : ℕ) (st : SweepState) :
    Polygons × SweepState :=
  let overhang := fullOverhang o cfg.maxDistFromLowerLayer L
  let joined := join st.supportAbove overhang cfg
  let t := handleTowers joined st.towerRoofs st.overhangRemaining L
    cfg.towerRoofExpansionDistance cfg.supportTowerDiameter cfg.zLayerDistanceTower
  let afterStruts := handleWallStruts t.1 cfg.supportMinAreaSqrt cfg.supportTowerDiameter
  let final := handleBottom o afterStruts L cfg.layerZdistanceBottom
    cfg.bottomStairStepLayerCount cfg.supportBottomStairStepWidth
  (final, ⟨final, t.2.1, t.2.2⟩)

/-- The sweep state before processing the `k`-th layer from the top (the
state after the top `k` layers of the mesh have been finalized). -/
def stateBefore (o : ℕ → Polygons) (cfg : Config) (ohs : List OverhangEntry)
    (lc : ℕ) : ℕ → SweepState
  | 0 => initState ohs cfg.zLayerDistanceTower lc
  | k + 1 => (layerStep o cfg (lc - 1 - k) (stateBefore o cfg ohs lc k)).2

/-- The finalized support of layer `L` produced by the top-down sweep run
with the given overhang-point list. -/
def supportAtLayerWith (o : ℕ → Polygons) (cfg : Config)
    (ohs : List OverhangEntry) (lc L : ℕ) : Polygons :=
  (layerStep o cfg L (stateBefore o cfg ohs lc (lc - 1 - L))).1

/-- Modelled from the spec (§4.6): the per-mesh
`AreaSupport::generateSupportAreas` (body missing from src) — run
`detectOverhangPoints` once, then sweep the layers from `layer_count - 1`
down to `0`; layers outside the range hold no support. -/
def generateSupportAreasMesh (mesh : SliceMeshStorage) (cfg : Config)
    (layer_count : ℕ) : ℕ → Polygons := fun L =>
  if L < layer_count then
    supportAtLayerWith mesh.outline cfg
      (detectOverhangPoints mesh.outline cfg.maxDistFromLowerLayer
        cfg.supportMinAreaSqrt layer_count)
      layer_count L
  else ∅

/-- Modelled from the spec (§4.6): the public
`AreaSupport::generateSupportAreas` (body missing from src) — for each mesh
with support enabled, run the per-mesh pipeline and merge its per-layer
result into the shared storage.  How the per-mesh results of different meshes
are merged at a shared layer is a policy the spec (§9) explicitly leaves
unspecified; the fold below therefore carries one admissible total merge (a
per-layer union) solely so that the entry point is a total function, and no
property of the cross-mesh merge policy is asserted or proved about it. -/
def generateSupportAreas (storage : SliceDataStorage) (cfg : Config)
    (layer_count : ℕ) : ℕ → Polygons :=
  storage.meshes.foldl
    (fun acc mesh =>
      if mesh.supportEnabled then
        fun L => acc L ∪ generateSupportAreasMesh mesh cfg layer_count L
      else acc)
    (fun _ => ∅)

/-- The raw public entry point: sanitize the externally supplied
configuration, then generate the support areas; total for every input. -/
def generateSupportAreasRaw (storage : SliceDataStorage) (raw : RawConfig)
    (layer_count : ℕ) : ℕ → Polygons :=
  generateSupportAreas storage (sanitize raw) layer_count

theorem conicalShrink_subset (up : Polygons) (off breadth : ℕ) :
    conicalShrink up off breadth ⊆ up := by
  intro p hp
  rcases Finset.mem_biUnion.mp hp with ⟨C, hC, hpC⟩
  have hCup : C ⊆ up := components_subset hC
  by_cases h : diamD C < breadth
  · rw [if_pos h] at hpC
    exact hCup hpC
  · rw [if_neg h] at hpC
    exact hCup (erode_subset C off hpC)

theorem conicalShrink_keeps_small {up C : Polygons} {off breadth : ℕ}
    (hC : C ∈ components up) (hsmall : diamD C < breadth) :
    C ⊆ conicalShrink up off breadth := by
  intro p hp
  refine Finset.mem_biUnion.mpr ⟨C, hC, ?_⟩
  rw [if_pos hsmall]
  exact hp

theorem smoothed_subset (A : Polygons) (d minArea : ℕ) :
    smoothed A d minArea ⊆ A := by
  intro p hp
  rcases Finset.mem_biUnion.mp hp with ⟨C, hC, hpC⟩
  have hCA : C ⊆ A := components_subset hC
  by_cases h : (C \ opening C d).card ≤ minArea
  · rw [if_pos h] at hpC
    exact hCA (opening_subset C d hpC)
  · rw [if_neg h] at hpC
    exact hCA hpC

theorem smoothed_zero (A : Polygons) (minArea : ℕ) :
    smoothed A 0 minArea = A := by
  have h : ∀ C ∈ components A,
      (if (C \ opening C 0).card ≤ minArea then opening C 0 else C) = C := by
    intro C _
    rw [opening_zero]
    split <;> rfl
  rw [smoothed, Finset.biUnion_congr rfl h]
  exact components_biUnion A

theorem joinUnion_subset (up this2 : Polygons) (cfg : Config) :
    joinUnion up this2 cfg ⊆ up ∪ this2 := by
  unfold joinUnion
  split
  · exact Finset.union_subset_union_left (conicalShrink_subset _ _ _)
  · exact subset_rfl

theorem join_subset_dilate (up this2 : Polygons) (cfg : Config) :
    join up this2 cfg ⊆ dilate (up ∪ this2) cfg.supportJoinDistance := by
  refine (smoothed_subset _ _ _).trans ?_
  refine (closing_subset_dilate _ _).trans ?_
  exact dilate_mono _ (joinUnion_subset up this2 cfg)

theorem handleBottomRemoved_base (o : ℕ → Polygons) (zB step w L : ℕ) :
    o (L + zB) ⊆ handleBottomRemoved o zB step w L :=
  Finset.subset_union_left

theorem handleBottom_disjoint (o : ℕ → Polygons) (S : Polygons)
    (L zB step w : ℕ) :
    handleBottom o S L zB step w ∩ o (L + zB) = ∅ := by
  rw [Finset.eq_empty_iff_forall_not_mem]
  intro p hp
  rcases Finset.mem_inter.mp hp with ⟨hp1, hp2⟩
  rcases Finset.mem_sdiff.mp hp1 with ⟨_, hnot⟩
  exact hnot (handleBottomRemoved_base o zB step w L hp2)

theorem layerStep_fst (o : ℕ → Polygons) (cfg : Config) (L : ℕ)
    (st : SweepState) :
    (layerStep o cfg L st).1 =
      handleBottom o
        (handleWallStruts
          (handleTowers (join st.supportAbove (fullOverhang o cfg.maxDistFromLowerLayer L) cfg)
            st.towerRoofs st.overhangRemaining L cfg.towerRoofExpansionDistance
            cfg.supportTowerDiameter cfg.zLayerDistanceTower).1
          cfg.supportMinAreaSqrt cfg.supportTowerDiameter)
        L cfg.layerZdistanceBottom cfg.bottomStairStepLayerCount
        cfg.supportBottomStairStepWidth := rfl

theorem generateSupportAreasMesh_disjoint_outline (mesh : SliceMeshStorage)
    (cfg : Config) (lc L : ℕ) :
    generateSupportAreasMesh mesh cfg lc L ∩
      mesh.outline (L + cfg.layerZdistanceBottom) = ∅ := by
  unfold generateSupportAreasMesh
  split
  · rw [supportAtLayerWith, layerStep_fst]
    exact handleBottom_disjoint _ _ _ _ _ _
  · exact Finset.empty_inter _

theorem sanitize_sane (raw : RawConfig) : Sane (sanitize raw) := by
  refine ⟨le_max_left 1 _, le_max_left 1 _, min_le_right _ _⟩

theorem sanitize_embed (c : Config) (h : Sane c) : sanitize (embedConfig c) = c := by
  obtain ⟨h1, h2, h3⟩ := h
  cases c
  dsimp only at h1 h2 h3
  simp only [sanitize, embedConfig, Int.toNat_natCast, Config.mk.injEq]
  exact ⟨trivial, sup_eq_right.mpr h1, trivial, trivial, trivial, trivial, trivial,
    inf_eq_left.mpr h3, trivial, sup_eq_right.mpr h2, trivial, trivial, trivial, trivial⟩

instance (c : Config) : Decidable (Sane c) := by
  unfold Sane
  infer_instance

/-- C1: For every mesh, configuration and layer index `L`, after the per-layer
pipeline (which ends with `handleBottom`) the model outline at layer
`L + layerZdistanceBottom` is fully subtracted from the finalized support at
`L`: no point of the support lies inside that outline, guaranteeing at least
`layerZdistanceBottom` layers of clear air between the support and the model
it rests on. -/
theorem C1_bottom_clearance (mesh : SliceMeshStorage) (cfg : Config) (lc L : ℕ) :
    generateSupportAreasMesh mesh cfg lc L ∩
      mesh.outline (L + cfg.layerZdistanceBottom) = ∅ :=
  generateSupportAreasMesh_disjoint_outline mesh cfg lc L

/-- C8: `generateSupportAreas` is total over all configuration inputs: the raw
entry point clamps every externally supplied configuration to the nearest sane
bound (the clamped configuration always satisfies the range conditions, e.g. a
conical smallest-breadth larger than the tower diameter or a non-positive
minimum feature size is clamped; a configuration already in range is left
unchanged) and then computes a defined output for every input. -/
theorem C8_total_clamped (storage : SliceDataStorage) (raw : RawConfig) (lc : ℕ) :
    Sane (sanitize raw) ∧
    generateSupportAreasRaw storage raw lc =
      generateSupportAreas storage (sanitize raw) lc ∧
    (∀ c : Config, Sane c → sanitize (embedConfig c) = c) :=
  ⟨sanitize_sane raw, rfl, sanitize_embed⟩

/-- An out-of-range raw configuration: negative minimum feature size and
distances, conical smallest-breadth larger than the tower diameter. -/
def rawBad : RawConfig := ⟨-3, -5, 2, 1, 4, true, 2, 99, 1, 0, 3, 1, 7, 2⟩

/-- An in-range configuration. -/
def cGood : Config := ⟨0, 2, 1, 1, 1, true, 1, 2, 1, 2, 1, 1, 5, 2⟩

theorem C8_total_clamped_witness :
    Sane (sanitize rawBad) ∧ sanitize (embedConfig cGood) = cGood :=
  ⟨(C8_total_clamped ⟨[]⟩ rawBad 0).1,
   (C8_total_clamped ⟨[]⟩ rawBad 0).2.2 cGood (by decide)⟩

theorem connected_symm {A : Polygons} {p q : Pt} (h : Connected A p q) :
    Connected A q p :=
  ⟨reach_subset h.1 h.2, mem_reach_symm h.1 h.2⟩

theorem closing_row_connected {U : Polygons} {r : ℕ} {a b y : ℤ}
    (hp : ((a, y) : Pt) ∈ U) (hq : ((b, y) : Pt) ∈ U) (hle : a ≤ b)
    (hd : (b - a).natAbs ≤ r) :
    ((b, y) : Pt) ∈ reach (closing U r) ((a, y) : Pt) := by
  have hmid : ∀ x, a ≤ x → x ≤ b → ((x, y) : Pt) ∈ closing U r := by
    intro x hax hxb
    refine mem_erode.mpr ⟨?_, ?_⟩
    · refine mem_dilate.mpr ⟨(a, y), hp, (x - a, 0), ?_, ?_⟩
      · rw [mem_ball]
        refine ⟨?_, ?_⟩ <;> simp <;> omega
      · refine Prod.ext ?_ ?_
        · show x = a + (x - a)
          ring
        · show y = y + 0
          ring
    · intro bq hbq
      rcases mem_ball.mp hbq with ⟨hb1, hb2⟩
      by_cases hcase : x + bq.1 ≤ a + r
      · refine mem_dilate.mpr ⟨(a, y), hp, (x + bq.1 - a, bq.2), ?_, ?_⟩
        · rw [mem_ball]
          refine ⟨?_, ?_⟩ <;> simp <;> omega
        · refine Prod.ext ?_ ?_
          · show x + bq.1 = a + (x + bq.1 - a)
            ring
          · show y + bq.2 = y + bq.2
            rfl
      · refine mem_dilate.mpr ⟨(b, y), hq, (x + bq.1 - b, bq.2), ?_, ?_⟩
        · rw [mem_ball]
          refine ⟨?_, ?_⟩ <;> simp <;> omega
        · refine Prod.ext ?_ ?_
          · show x + bq.1 = b + (x + bq.1 - b)
            ring
          · show y + bq.2 = y + bq.2
            rfl
  exact reach_row hle hmid

theorem closing_col_connected {U : Polygons} {r : ℕ} {a b x : ℤ}
    (hp : ((x, a) : Pt) ∈ U) (hq : ((x, b) : Pt) ∈ U) (hle : a ≤ b)
    (hd : (b - a).natAbs ≤ r) :
    ((x, b) : Pt) ∈ reach (closing U r) ((x, a) : Pt) := by
  have hmid : ∀ y, a ≤ y → y ≤ b → ((x, y) : Pt) ∈ closing U r := by
    intro y hay hyb
    refine mem_erode.mpr ⟨?_, ?_⟩
    · refine mem_dilate.mpr ⟨(x, a), hp, (0, y - a), ?_, ?_⟩
      · rw [mem_ball]
        refine ⟨?_, ?_⟩ <;> simp <;> omega
      · refine Prod.ext ?_ ?_
        · show x = x + 0
          ring
        · show y = a + (y - a)
          ring
    · intro bq hbq
      rcases mem_ball.mp hbq with ⟨hb1, hb2⟩
      by_cases hcase : y + bq.2 ≤ a + r
      · refine mem_dilate.mpr ⟨(x, a), hp, (bq.1, y + bq.2 - a), ?_, ?_⟩
        · rw [mem_ball]
          refine ⟨?_, ?_⟩ <;> simp <;> omega
        · refine Prod.ext ?_ ?_
          · show x + bq.1 = x + bq.1
            rfl
          · show y + bq.2 = a + (y + bq.2 - a)
            ring
      · refine mem_dilate.mpr ⟨(x, b), hq, (bq.1, y + bq.2 - b), ?_, ?_⟩
        · rw [mem_ball]
          refine ⟨?_, ?_⟩ <;> simp <;> omega
        · refine Prod.ext ?_ ?_
          · show x + bq.1 = x + bq.1
            rfl
          · show y + bq.2 = b + (y + bq.2 - b)
            ring
  exact reach_col hle hmid

/-- C4 (amended): when conical support is enabled, `join` shrinks
`supportLayer_up` inward by the conical offset but carries every connected
region whose effective diameter is below `conical_smallest_breadth` whole; the
shrunk carried-down area never exceeds `supportLayer_up`; and `join`'s output
is contained in — hence never larger in area than — the union of
`supportLayer_up` and this layer's overhang grown by `supportJoinDistance`.
The original bound against the support at `L+1` alone fails once the layer
contributes fresh overhang. -/
theorem C4_conical_amended (up this2 : Polygons) (cfg : Config)
    (_hconical : cfg.conicalSupport = true) :
    (∀ C ∈ components up, diamD C < cfg.conicalSmallestBreadth →
        C ⊆ conicalShrink up cfg.conicalSupportOffset cfg.conicalSmallestBreadth) ∧
    conicalShrink up cfg.conicalSupportOffset cfg.conicalSmallestBreadth ⊆ up ∧
    join up this2 cfg ⊆ dilate (up ∪ this2) cfg.supportJoinDistance ∧
    (join up this2 cfg).card ≤ (dilate (up ∪ this2) cfg.supportJoinDistance).card :=
  ⟨fun _ hC hs => conicalShrink_keeps_small hC hs,
   conicalShrink_subset up _ _,
   join_subset_dilate up this2 cfg,
   Finset.card_le_card (join_subset_dilate up this2 cfg)⟩

/-- A conical-support configuration: offset 1, smallest breadth 5. -/
def conicalCfg : Config := ⟨0, 1, 0, 0, 0, true, 1, 5, 1, 1, 0, 1, 2, 1⟩

/-- A mesh whose only outline is a 2-point overhang at layer 1 of 3. -/
def conicalMesh : SliceMeshStorage :=
  ⟨fun n => if n = 1 then {((0 : ℤ), (0 : ℤ)), ((1 : ℤ), (0 : ℤ))} else ∅, true⟩

/-- C4 counterexample: with conical support enabled, the support at layer 1
(holding fresh overhang) is strictly larger in area than the support at layer
2 (empty) grown by the offset tolerance — the claimed per-layer area bound is
false. -/
theorem C4_counterexample :
    conicalCfg.conicalSupport = true ∧
    ¬ (generateSupportAreasMesh conicalMesh conicalCfg 3 1).card ≤
        (dilate (generateSupportAreasMesh conicalMesh conicalCfg 3 2)
          (conicalCfg.conicalSupportOffset + conicalCfg.supportJoinDistance)).card := by
  decide

theorem C4_conical_amended_witness :
    ({((0 : ℤ), (0 : ℤ))} : Polygons) ⊆
      conicalShrink {((0 : ℤ), (0 : ℤ))} conicalCfg.conicalSupportOffset
        conicalCfg.conicalSmallestBreadth ∧
    (join {((0 : ℤ), (0 : ℤ))} {((3 : ℤ), (0 : ℤ))} conicalCfg).card ≤
      (dilate ({((0 : ℤ), (0 : ℤ))} ∪ {((3 : ℤ), (0 : ℤ))})
        conicalCfg.supportJoinDistance).card :=
  ⟨(C4_conical_amended {((0 : ℤ), (0 : ℤ))} {((3 : ℤ), (0 : ℤ))} conicalCfg rfl).1
      {((0 : ℤ), (0 : ℤ))} (by decide) (by decide),
   (C4_conical_amended {((0 : ℤ), (0 : ℤ))} {((3 : ℤ), (0 : ℤ))} conicalCfg rfl).2.2.2⟩

/-- C5 (amended): `join` applies a closing by `supportJoinDistance` to the
union of the carried-down support and this layer's overhang, so (with no
smoothing) any two points of that union that face each other along a grid row
or column at distance at most `supportJoinDistance` end up in one connected
region of the returned polygon set.  For islands separated diagonally the
original claim fails. -/
theorem C5_join_amended (up this2 : Polygons) (cfg : Config) (p q : Pt)
    (hsm : cfg.smoothingDistance = 0)
    (hp : p ∈ joinUnion up this2 cfg) (hq : q ∈ joinUnion up this2 cfg)
    (haxis : (p.2 = q.2 ∧ (q.1 - p.1).natAbs ≤ cfg.supportJoinDistance) ∨
             (p.1 = q.1 ∧ (q.2 - p.2).natAbs ≤ cfg.supportJoinDistance)) :
    p ∈ join up this2 cfg ∧ q ∈ join up this2 cfg ∧
      Connected (join up this2 cfg) p q := by
  have hj : join up this2 cfg =
      closing (joinUnion up this2 cfg) cfg.supportJoinDistance := by
    rw [join, hsm, smoothed_zero]
  have hpc : p ∈ join up this2 cfg := by
    rw [hj]; exact subset_closing _ _ hp
  have hqc : q ∈ join up this2 cfg := by
    rw [hj]; exact subset_closing _ _ hq
  refine ⟨hpc, hqc, ?_⟩
  obtain ⟨px, py⟩ := p
  obtain ⟨qx, qy⟩ := q
  rcases haxis with ⟨hy, hdx⟩ | ⟨hx, hdy⟩
  · dsimp at hy hdx
    subst hy
    rcases le_total px qx with hle | hle
    · refine ⟨hpc, ?_⟩
      rw [hj]
      exact closing_row_connected hp hq hle hdx
    · have h2 : Connected (join up this2 cfg) (qx, py) (px, py) := by
        refine ⟨hqc, ?_⟩
        rw [hj]
        exact closing_row_connected hq hp hle (by omega)
      exact connected_symm h2
  · dsimp at hx hdy
    subst hx
    rcases le_total py qy with hle | hle
    · refine ⟨hpc, ?_⟩
      rw [hj]
      exact closing_col_connected hp hq hle hdy
    · have h2 : Connected (join up this2 cfg) (px, qy) (px, py) := by
        refine ⟨hqc, ?_⟩
        rw [hj]
        exact closing_col_connected hq hp hle (by omega)
      exact connected_symm h2

/-- A join configuration: join distance 3, no smoothing, no conical support. -/
def joinCfg : Config := ⟨0, 1, 3, 0, 0, false, 0, 0, 1, 1, 0, 1, 2, 1⟩

/-- Two single-point islands facing each other diagonally at Chebyshev
distance 2. -/
def diagIslands : Polygons := {((0 : ℤ), (0 : ℤ)), ((2 : ℤ), (2 : ℤ))}

/-- C5 counterexample: the two diagonal islands are disjoint and their gap
(2) is smaller than the join distance (3), yet the closing performed by
`join` leaves them in two distinct connected regions. -/
theorem C5_counterexample :
    ¬ Connected diagIslands ((0 : ℤ), (0 : ℤ)) ((2 : ℤ), (2 : ℤ)) ∧
    distInf ((0 : ℤ), (0 : ℤ)) ((2 : ℤ), (2 : ℤ)) < joinCfg.supportJoinDistance ∧
    ((0 : ℤ), (0 : ℤ)) ∈ join ∅ diagIslands joinCfg ∧
    ((2 : ℤ), (2 : ℤ)) ∈ join ∅ diagIslands joinCfg ∧
    ¬ Connected (join ∅ diagIslands joinCfg) ((0 : ℤ), (0 : ℤ)) ((2 : ℤ), (2 : ℤ)) := by
  set_option maxRecDepth 100000 in decide

theorem C5_join_amended_witness :
    Connected (join ∅ {((0 : ℤ), (0 : ℤ)), ((3 : ℤ), (0 : ℤ))} joinCfg)
      ((0 : ℤ), (0 : ℤ)) ((3 : ℤ), (0 : ℤ)) :=
  (C5_join_amended ∅ {((0 : ℤ), (0 : ℤ)), ((3 : ℤ), (0 : ℤ))} joinCfg
    ((0 : ℤ), (0 : ℤ)) ((3 : ℤ), (0 : ℤ)) rfl (by decide) (by decide)
    (Or.inl ⟨rfl, by decide⟩)).2.2

theorem detect_fun_eq {o : ℕ → Polygons} {maxDist minSqrt : ℕ} {L : ℕ}
    {e : OverhangEntry}
    (h : (if (overhangPointsAt o maxDist minSqrt L).Nonempty
        then some (L, overhangPointsAt o maxDist minSqrt L) else none) = some e) :
    e = (L, overhangPointsAt o maxDist minSqrt L) := by
  by_cases hne : (overhangPointsAt o maxDist minSqrt L).Nonempty
  · rw [if_pos hne] at h
    exact (Option.some_inj.mp h).symm
  · rw [if_neg hne] at h
    exact absurd h (Option.noConfusion)

theorem pairwise_fst_lt_filterMap {f : ℕ → Option OverhangEntry}
    (hf : ∀ L e, f L = some e → e.1 = L) :
    ∀ l : List ℕ, l.Pairwise (· < ·) →
      (l.filterMap f).Pairwise (fun a b => a.1 < b.1) := by
  intro l
  induction l with
  | nil => intro _; simp
  | cons a l ih =>
      intro h
      rcases hpw : f a with _ | e
      · rw [List.filterMap_cons_none hpw]
        exact ih (List.Pairwise.of_cons h)
      · rw [List.filterMap_cons_some hpw]
        refine List.Pairwise.cons ?_ (ih (List.Pairwise.of_cons h))
        intro b hb
        rcases List.mem_filterMap.mp hb with ⟨x, hx, hfx⟩
        have hax : a < x := (List.pairwise_cons.mp h).1 x hx
        have h1 := hf a e hpw
        have h2 := hf x b hfx
        omega

/-- C6: `detectOverhangPoints` makes a single forward pass over the layers of
a mesh; its output is strictly ordered by layer index; each recorded entry
holds, for its layer, exactly connected components of the basic overhang
whose minimal enclosing diameter is below `supportMinAreaSqrt`; and every
such small component of every layer below `layer_count` is recorded as an
overhang point at its layer. -/
theorem C6_detect (o : ℕ → Polygons) (maxDist minSqrt lc : ℕ) :
    (detectOverhangPoints o maxDist minSqrt lc).Pairwise (fun a b => a.1 < b.1) ∧
    (∀ e ∈ detectOverhangPoints o maxDist minSqrt lc, e.1 < lc ∧
        ∀ C ∈ e.2, C ∈ components (basicOverhang o maxDist e.1) ∧ diamD C < minSqrt) ∧
    (∀ L, L < lc → ∀ C ∈ components (basicOverhang o maxDist L), diamD C < minSqrt →
        ∃ e ∈ detectOverhangPoints o maxDist minSqrt lc, e.1 = L ∧ C ∈ e.2) := by
  refine ⟨?_, ?_, ?_⟩
  · refine pairwise_fst_lt_filterMap ?_ (List.range lc) (List.pairwise_lt_range lc)
    intro L e h
    rw [detect_fun_eq h]
  · intro e he
    rcases List.mem_filterMap.mp he with ⟨L, hL, hfe⟩
    have heq := detect_fun_eq hfe
    subst heq
    refine ⟨List.mem_range.mp hL, ?_⟩
    intro C hC
    exact ⟨(Finset.mem_filter.mp hC).1, (Finset.mem_filter.mp hC).2⟩
  · intro L hL C hC hsmall
    have hCps : C ∈ overhangPointsAt o maxDist minSqrt L :=
      Finset.mem_filter.mpr ⟨hC, hsmall⟩
    have hne : (overhangPointsAt o maxDist minSqrt L).Nonempty := ⟨C, hCps⟩
    refine ⟨(L, overhangPointsAt o maxDist minSqrt L), ?_, rfl, hCps⟩
    refine List.mem_filterMap.mpr ⟨L, List.mem_range.mpr hL, ?_⟩
    simp only [detectOverhangPoints]
    rw [if_pos hne]

/-- The scenario mesh: a diameter-3 overhang strip appearing only at layer 5
of a 10-layer mesh. -/
def scenarioOutline : ℕ → Polygons := fun n =>
  if n = 5 then
    {((0 : ℤ), (0 : ℤ)), ((1 : ℤ), (0 : ℤ)), ((2 : ℤ), (0 : ℤ)), ((3 : ℤ), (0 : ℤ))}
  else ∅

/-- The diameter-3 strip at layer 5 of the scenario mesh. -/
def scenarioComponent : Polygons :=
  {((0 : ℤ), (0 : ℤ)), ((1 : ℤ), (0 : ℤ)), ((2 : ℤ), (0 : ℤ)), ((3 : ℤ), (0 : ℤ))}

theorem C6_detect_witness :
    ∃ e ∈ detectOverhangPoints scenarioOutline 0 5 10, e.1 = 5 ∧
      scenarioComponent ∈ e.2 :=
  (C6_detect scenarioOutline 0 5 10).2.2 5 (by decide) scenarioComponent
    (by decide) (by decide)

theorem le_foldr_max {l : List ℕ} {a : ℕ} (h : a ∈ l) (b : ℕ) :
    a ≤ l.foldr max b := by
  induction l with
  | nil => exact absurd h (List.not_mem_nil a)
  | cons c l ih =>
      rcases List.mem_cons.mp h with rfl | hmem
      · exact le_max_left _ _
      · exact (ih hmem).trans (le_max_right _ _)

theorem foldr_max_zero_mem : ∀ {l : List ℕ}, l ≠ [] → l.foldr max 0 ∈ l := by
  intro l
  induction l with
  | nil => intro h; exact absurd rfl h
  | cons c l ih =>
      intro _
      cases l with
      | nil => simp
      | cons d m =>
          rcases max_choice c ((d :: m).foldr max 0) with h | h
          · rw [List.foldr_cons, h]
            exact List.mem_cons_self _ _
          · rw [List.foldr_cons, h]
            exact List.mem_cons_of_mem _ (ih (by simp))

theorem coreRadius_spec {C : Polygons} (hC : C.Nonempty) :
    (erode C (coreRadius C)).Nonempty := by
  have h0 : (0 : ℕ) ∈ (List.range (diamD C + 1)).filter
      (fun r => (erode C r).Nonempty) := by
    rw [List.mem_filter]
    refine ⟨List.mem_range.mpr (by omega), ?_⟩
    rw [decide_eq_true_eq, erode_zero]
    exact hC
  have hne : (List.range (diamD C + 1)).filter
      (fun r => (erode C r).Nonempty) ≠ [] := by
    intro h
    rw [h] at h0
    exact absurd h0 (List.not_mem_nil 0)
  have hmem := foldr_max_zero_mem hne
  rw [List.mem_filter, decide_eq_true_eq] at hmem
  exact hmem.2

theorem coreRadius_ge {C : Polygons} {s : ℕ} (h : (erode C s).Nonempty) :
    s ≤ coreRadius C := by
  obtain ⟨p, hp⟩ := h
  rcases mem_erode.mp hp with ⟨hpC, hball⟩
  have hup : p + ((s : ℤ), (s : ℤ)) ∈ C := by
    refine hball _ ?_
    rw [mem_ball]
    constructor <;> simp
  have hdown : p + (-(s : ℤ), -(s : ℤ)) ∈ C := by
    refine hball _ ?_
    rw [mem_ball]
    constructor <;> simp
  have hdist : distInf (p + ((s : ℤ), (s : ℤ))) (p + (-(s : ℤ), -(s : ℤ))) = 2 * s := by
    simp only [distInf, Prod.fst_add, Prod.snd_add]
    have : (p.1 + s - (p.1 + -(s : ℤ))).natAbs = 2 * s := by omega
    have h2 : (p.2 + s - (p.2 + -(s : ℤ))).natAbs = 2 * s := by omega
    omega
  have hle : 2 * s ≤ diamD C := by
    rw [← hdist]
    exact distInf_le_diamD hup hdown
  refine le_foldr_max ?_ 0
  rw [List.mem_filter, decide_eq_true_eq]
  exact ⟨List.mem_range.mpr (by omega), ⟨p, hp⟩⟩

theorem ball_split {r t : ℕ} {b : Pt} (hb : b ∈ ball (r + t)) :
    ∃ b1 ∈ ball r, ∃ b2 ∈ ball t, b = b1 + b2 := by
  rcases mem_ball.mp hb with ⟨h1, h2⟩
  refine ⟨(max (-(r : ℤ)) (min b.1 r), max (-(r : ℤ)) (min b.2 r)), ?_,
    (b.1 - max (-(r : ℤ)) (min b.1 r), b.2 - max (-(r : ℤ)) (min b.2 r)), ?_, ?_⟩
  · rw [mem_ball]
    constructor <;> simp <;> omega
  · rw [mem_ball]
    constructor <;> simp <;> omega
  · refine Prod.ext ?_ ?_ <;> simp

theorem erode_dilate_nonempty {C : Polygons} {r t : ℕ}
    (h : (erode C r).Nonempty) : (erode (dilate C t) (r + t)).Nonempty := by
  obtain ⟨p, hp⟩ := h
  rcases mem_erode.mp hp with ⟨hpC, hball⟩
  refine ⟨p, mem_erode.mpr ⟨subset_dilate C t hpC, ?_⟩⟩
  intro b hb
  rcases ball_split hb with ⟨b1, hb1, b2, hb2, rfl⟩
  refine mem_dilate.mpr ⟨p + b1, hball b1 hb1, b2, hb2, ?_⟩
  rw [add_assoc]

theorem widthEstimate_dilate {C : Polygons} (t : ℕ) (hC : C.Nonempty) :
    widthEstimate C + 2 * t ≤ widthEstimate (dilate C t) := by
  have h1 : (erode (dilate C t) (coreRadius C + t)).Nonempty :=
    erode_dilate_nonempty (coreRadius_spec hC)
  have h2 : coreRadius C + t ≤ coreRadius (dilate C t) := coreRadius_ge h1
  simp only [widthEstimate]
  omega

/-- The union of the widened thin regions added by `handleWallStruts`. -/
def thinExpansion (S : Polygons) (minSqrt towerD : ℕ) : Polygons :=
  ((components S).filter (fun C => isThin C minSqrt)).biUnion
    (fun C => dilate C (strutOffset C towerD))

theorem diamD_empty : diamD (∅ : Polygons) = 0 := by
  simp [diamD]

theorem coreRadius_empty : coreRadius (∅ : Polygons) = 0 := by decide

theorem isThin_nonempty {C : Polygons} {minSqrt : ℕ} (h : isThin C minSqrt) :
    C.Nonempty := by
  rcases h with ⟨h1, h2⟩
  rcases Finset.eq_empty_or_nonempty C with rfl | hne
  · rw [diamD_empty] at h1
    rw [widthEstimate, coreRadius_empty] at h2
    omega
  · exact hne

/-- C9: `handleWallStruts` modifies only the thin elongated regions of the
layer's support: nothing is removed, every added point comes from widening a
thin region, any point outside the widened-thin-region area is in the result
exactly when it was in the input, non-thin components are carried unchanged,
and every thin component is widened to at least the strut diameter. -/
theorem C9_wall_struts (S : Polygons) (minSqrt towerD : ℕ) :
    S ⊆ handleWallStruts S minSqrt towerD ∧
    handleWallStruts S minSqrt towerD ⊆ S ∪ thinExpansion S minSqrt towerD ∧
    (∀ p, p ∉ thinExpansion S minSqrt towerD →
        (p ∈ handleWallStruts S minSqrt towerD ↔ p ∈ S)) ∧
    (∀ C ∈ components S, ¬ isThin C minSqrt →
        C ⊆ handleWallStruts S minSqrt towerD) ∧
    (∀ C ∈ components S, isThin C minSqrt → widthEstimate C ≤ towerD →
        towerD ≤ widthEstimate (dilate C (strutOffset C towerD))) := by
  have hsub1 : S ⊆ handleWallStruts S minSqrt towerD := by
    intro p hp
    have hC : reach S p ∈ components S := mem_components.mpr ⟨p, hp, rfl⟩
    refine Finset.mem_biUnion.mpr ⟨reach S p, hC, ?_⟩
    by_cases ht : isThin (reach S p) minSqrt
    · rw [if_pos ht]
      exact subset_dilate _ _ (mem_reach_self hp)
    · rw [if_neg ht]
      exact mem_reach_self hp
  have hsub2 : handleWallStruts S minSqrt towerD ⊆ S ∪ thinExpansion S minSqrt towerD := by
    intro p hp
    rcases Finset.mem_biUnion.mp hp with ⟨C, hC, hpC⟩
    by_cases ht : isThin C minSqrt
    · rw [if_pos ht] at hpC
      refine Finset.mem_union_right _ ?_
      exact Finset.mem_biUnion.mpr ⟨C, Finset.mem_filter.mpr ⟨hC, ht⟩, hpC⟩
    · rw [if_neg ht] at hpC
      exact Finset.mem_union_left _ (components_subset hC hpC)
  refine ⟨hsub1, hsub2, ?_, ?_, ?_⟩
  · intro p hpt
    constructor
    · intro hp
      rcases Finset.mem_union.mp (hsub2 hp) with h | h
      · exact h
      · exact absurd h hpt
    · exact fun hp => hsub1 hp
  · intro C hC ht
    intro p hp
    refine Finset.mem_biUnion.mpr ⟨C, hC, ?_⟩
    rw [if_neg ht]
    exact hp
  · intro C _ ht hwle
    have hne := isThin_nonempty ht
    have := widthEstimate_dilate (strutOffset C towerD) hne
    simp only [strutOffset] at *
    omega

/-- A thin elongated wall: a 4-point strip of width 1. -/
def thinWall : Polygons :=
  {((0 : ℤ), (0 : ℤ)), ((1 : ℤ), (0 : ℤ)), ((2 : ℤ), (0 : ℤ)), ((3 : ℤ), (0 : ℤ))}

theorem C9_wall_struts_witness :
    thinWall ⊆ handleWallStruts thinWall 3 3 ∧
    3 ≤ widthEstimate (dilate thinWall (strutOffset thinWall 3)) :=
  ⟨(C9_wall_struts thinWall 3 3).1,
   (C9_wall_struts thinWall 3 3).2.2.2.2 thinWall (by decide) (by decide) (by decide)⟩

/-- C7: `handleBottom` subtracts, besides the model outline at
`L + layerZdistanceBottom`, a stair region sampled at the top layer of the
tread containing `L`: the sample is the same for every layer of a tread and a
tread spans exactly `bottom_stair_step_layer_count` layers (so treads are never
taller than that); whenever the stair stays within
`support_bottom_stair_step_width` of the model outline the extra removed
region is within that width; and when a required tread would exceed the
width, the upper half of the tread keeps the regular stair geometry while the
lower half conforms directly to the model outline. -/
theorem C7_stair_bounds (o : ℕ → Polygons) (S : Polygons) (zB step w L : ℕ)
    (hstep : 1 ≤ step) :
    (handleBottom o S L zB step w = S \ handleBottomRemoved o zB step w L) ∧
    (o (L + zB) ⊆ handleBottomRemoved o zB step w L) ∧
    (∀ L2, L2 / step = L / step → treadTop step L2 = treadTop step L) ∧
    (L - L % step ≤ L ∧ L ≤ treadTop step L ∧
      treadTop step L + 1 - (L - L % step) = step) ∧
    (o (treadTop step L + zB) ⊆ dilate (o (L + zB)) w →
        handleBottomRemoved o zB step w L \ o (L + zB) ⊆ dilate (o (L + zB)) w) ∧
    (¬ o (treadTop step L + zB) ⊆ dilate (o (L + zB)) w →
        (step / 2 ≤ L % step →
            handleBottomRemoved o zB step w L =
              o (L + zB) ∪ o (treadTop step L + zB)) ∧
        (L % step < step / 2 → handleBottomRemoved o zB step w L = o (L + zB))) := by
  refine ⟨rfl, handleBottomRemoved_base o zB step w L, ?_, ?_, ?_, ?_⟩
  · intro L2 h
    simp only [treadTop]
    have h1 := Nat.div_add_mod L2 step
    have h2 := Nat.div_add_mod L step
    have h3 : step * (L2 / step) = step * (L / step) := by rw [h]
    omega
  · have hmod : L % step < step := Nat.mod_lt _ (by omega)
    refine ⟨by omega, ?_, ?_⟩
    · simp only [treadTop]
      omega
    · simp only [treadTop]
      omega
  · intro h
    intro p hp
    rcases Finset.mem_sdiff.mp hp with ⟨hp1, hp2⟩
    simp only [handleBottomRemoved] at hp1
    rw [if_pos h] at hp1
    rcases Finset.mem_union.mp hp1 with hb | hs
    · exact absurd hb hp2
    · exact h hs
  · intro h
    constructor
    · intro hup
      simp only [handleBottomRemoved]
      rw [if_neg h, if_pos hup]
    · intro hlow
      simp only [handleBottomRemoved]
      rw [if_neg h, if_neg (by omega), Finset.union_empty]

/-- A model with a two-layer stair shoulder: outline widens from layer 2 to
layer 3. -/
def stairOutline : ℕ → Polygons := fun n =>
  if n = 2 then {((0 : ℤ), (0 : ℤ))}
  else if n = 3 then {((0 : ℤ), (0 : ℤ)), ((1 : ℤ), (0 : ℤ))} else ∅

theorem C7_stair_bounds_witness :
    handleBottomRemoved stairOutline 0 2 1 2 \ stairOutline (2 + 0) ⊆
      dilate (stairOutline (2 + 0)) 1 ∧
    treadTop 2 3 = treadTop 2 2 :=
  ⟨(C7_stair_bounds stairOutline ∅ 0 2 1 2 (by decide)).2.2.2.2.1 (by decide),
   (C7_stair_bounds stairOutline ∅ 0 2 1 2 (by decide)).2.2.1 3 (by decide)⟩

theorem fullOverhang_congr {o o2 : ℕ → Polygons} {d M : ℕ}
    (h : ∀ j, M ≤ j + 1 → o j = o2 j) :
    fullOverhang o d M = fullOverhang o2 d M := by
  cases M with
  | zero => rfl
  | succ n =>
      have h1 : o (n + 1) = o2 (n + 1) := h _ (by omega)
      have h2 : o n = o2 n := h _ (by omega)
      simp only [fullOverhang, basicOverhang, h1, h2]

theorem handleBottomRemoved_congr {o o2 : ℕ → Polygons} {zB step w M : ℕ}
    (hstep : 1 ≤ step) (h : ∀ j, M ≤ j + 1 → o j = o2 j) :
    handleBottomRemoved o zB step w M = handleBottomRemoved o2 zB step w M := by
  have h1 : o (M + zB) = o2 (M + zB) := h _ (by omega)
  have h2 : o (treadTop step M + zB) = o2 (treadTop step M + zB) := by
    refine h _ ?_
    have hmod : M % step < step := Nat.mod_lt _ (by omega)
    have : M ≤ treadTop step M := by
      simp only [treadTop]
      omega
    omega
  simp only [handleBottomRemoved, h1, h2]

theorem layerStep_congr {o o2 : ℕ → Polygons} (cfg : Config) {M : ℕ}
    (st : SweepState) (hstep : 1 ≤ cfg.bottomStairStepLayerCount)
    (h : ∀ j, M ≤ j + 1 → o j = o2 j) :
    layerStep o cfg M st = layerStep o2 cfg M st := by
  have hov : fullOverhang o cfg.maxDistFromLowerLayer M =
      fullOverhang o2 cfg.maxDistFromLowerLayer M := fullOverhang_congr h
  have hrem : handleBottomRemoved o cfg.layerZdistanceBottom
      cfg.bottomStairStepLayerCount cfg.supportBottomStairStepWidth M =
      handleBottomRemoved o2 cfg.layerZdistanceBottom
        cfg.bottomStairStepLayerCount cfg.supportBottomStairStepWidth M :=
    handleBottomRemoved_congr hstep h
  simp only [layerStep, handleBottom, hov, hrem]

theorem stateBefore_congr {o o2 : ℕ → Polygons} (cfg : Config)
    (ohs : List OverhangEntry) {lc : ℕ}
    (hstep : 1 ≤ cfg.bottomStairStepLayerCount) :
    ∀ k, (∀ j, lc - k ≤ j + 1 → o j = o2 j) →
      stateBefore o cfg ohs lc k = stateBefore o2 cfg ohs lc k := by
  intro k
  induction k with
  | zero => intro _; rfl
  | succ n ih =>
      intro h
      have hprev : stateBefore o cfg ohs lc n = stateBefore o2 cfg ohs lc n := by
        refine ih ?_
        intro j hj
        exact h j (by omega)
      simp only [stateBefore, hprev]
      rw [layerStep_congr cfg _ hstep ?_]
      intro j hj
      exact h j (by omega)

/-- C2 (amended): within a sanitized configuration, the finalized support at
layer `L` is a function only of the model outlines at layers at least
`L - 1`, the finalized support of layer `L + 1`, and the per-mesh
overhang-point list and cursor carried by the sweep state: two sweeps run with
the same overhang-point list whose model outlines agree on every layer at
least `L - 1` produce identical support at `L` (the per-layer step reads the
outline of the layer below `L` to compute the overhang, so agreement at
layers `≥ L` alone is not enough), and no step reads a layer that is not yet
finalized — the state entering layer `L` is built only from layers above. -/
theorem C2_layer_dependency_amended (o o2 : ℕ → Polygons) (cfg : Config)
    (ohs : List OverhangEntry) (lc L : ℕ)
    (hstep : 1 ≤ cfg.bottomStairStepLayerCount) (hL : L < lc)
    (h : ∀ j, L ≤ j + 1 → o j = o2 j) :
    supportAtLayerWith o cfg ohs lc L = supportAtLayerWith o2 cfg ohs lc L := by
  have hst : stateBefore o cfg ohs lc (lc - 1 - L) =
      stateBefore o2 cfg ohs lc (lc - 1 - L) := by
    refine stateBefore_congr cfg ohs hstep _ ?_
    intro j hj
    exact h j (by omega)
  rw [supportAtLayerWith, supportAtLayerWith, hst, layerStep_congr cfg _ hstep h]

/-- The sweep configuration for the dependency counterexample. -/
def depCfg : Config := ⟨0, 1, 0, 0, 0, false, 0, 0, 1, 1, 0, 1, 2, 1⟩

/-- A mesh outline store with an overhang at layer 1 and nothing below. -/
def depOutline : ℕ → Polygons := fun n =>
  if n = 1 then {((0 : ℤ), (0 : ℤ)), ((1 : ℤ), (0 : ℤ))} else ∅

/-- The same store with solid material added only at layer 0 (a layer
strictly below 1), which supports the layer-1 region. -/
def depOutlineLow : ℕ → Polygons := fun n =>
  if n = 0 then {((0 : ℤ), (0 : ℤ)), ((1 : ℤ), (0 : ℤ))} else depOutline n

/-- C2 counterexample: the two outline stores agree on every layer at least
`1` and differ only at layer `0`, yet the finalized support at layer `1`
differs — the support at `L` is not a function of the outlines at layers
`≥ L` only. -/
theorem C2_counterexample :
    (fun j => depOutlineLow (j + 1)) = (fun j => depOutline (j + 1)) ∧
    depOutlineLow 0 ≠ depOutline 0 ∧
    generateSupportAreasMesh ⟨depOutline, true⟩ depCfg 2 1 ≠
      generateSupportAreasMesh ⟨depOutlineLow, true⟩ depCfg 2 1 :=
  ⟨rfl, by decide, by decide⟩

/-- The overhang-point list a mesh's sweep consumes. -/
def meshOverhangPoints (o : ℕ → Polygons) (cfg : Config) (lc : ℕ) :
    List OverhangEntry :=
  detectOverhangPoints o cfg.maxDistFromLowerLayer cfg.supportMinAreaSqrt lc

theorem meshOverhangPoints_pairwise (o : ℕ → Polygons) (cfg : Config) (lc : ℕ) :
    (meshOverhangPoints o cfg lc).Pairwise (fun a b => a.1 < b.1) := by
  refine pairwise_fst_lt_filterMap ?_ (List.range lc) (List.pairwise_lt_range lc)
  intro L e h
  rw [detect_fun_eq h]

/-- The cursor (the not yet consumed part of the overhang-point list, kept in
descending activation-layer order) before the sweep processes layer `L`. -/
def remBefore (o : ℕ → Polygons) (cfg : Config) (ohs : List OverhangEntry)
    (lc L : ℕ) : List OverhangEntry :=
  (stateBefore o cfg ohs lc (lc - 1 - L)).overhangRemaining

/-- The overhang-point record the sweep activates while processing layer `L`,
if any. -/
def activatedAt (o : ℕ → Polygons) (cfg : Config) (ohs : List OverhangEntry)
    (lc L : ℕ) : Option OverhangEntry :=
  match remBefore o cfg ohs lc L with
  | [] => none
  | e :: _ => if e.1 + cfg.zLayerDistanceTower = L then some e else none

/-- The roof regions seeded from the cursor while processing layer `L`. -/
def towerActivation (rem : List OverhangEntry) (L z : ℕ) : Finset Polygons :=
  match rem with
  | [] => ∅
  | e :: _ => if e.1 + z = L then e.2 else ∅

theorem handleTowers_roofs (S : Polygons) (roofs : Finset Polygons)
    (rem : List OverhangEntry) (L exp towerD z : ℕ) :
    (handleTowers S roofs rem L exp towerD z).2.1 =
      (roofs.image (fun r => dilate r exp)).filter (fun r => diamD r < towerD) ∪
        towerActivation rem L z := by
  cases rem with
  | nil => rfl
  | cons e rest =>
      simp only [handleTowers, towerActivation]
      split <;> rfl

theorem handleTowers_rem (S : Polygons) (roofs : Finset Polygons)
    (rem : List OverhangEntry) (L exp towerD z : ℕ) :
    (handleTowers S roofs rem L exp towerD z).2.2 =
      match rem with
      | [] => []
      | e :: rest => if e.1 + z = L then rest else e :: rest := by
  cases rem with
  | nil => rfl
  | cons e rest =>
      simp only [handleTowers]
      split <;> rfl

theorem handleTowers_fst (S : Polygons) (roofs : Finset Polygons)
    (rem : List OverhangEntry) (L exp towerD z : ℕ) :
    (handleTowers S roofs rem L exp towerD z).1 =
      S ∪ (roofs.image (fun r => dilate r exp)).sup id := rfl

theorem layerStep_rem (o : ℕ → Polygons) (cfg : Config) (L : ℕ) (st : SweepState) :
    (layerStep o cfg L st).2.overhangRemaining =
      match st.overhangRemaining with
      | [] => []
      | e :: rest =>
          if e.1 + cfg.zLayerDistanceTower = L then rest else e :: rest := by
  have h : (layerStep o cfg L st).2.overhangRemaining =
      (handleTowers (join st.supportAbove (fullOverhang o cfg.maxDistFromLowerLayer L) cfg)
        st.towerRoofs st.overhangRemaining L cfg.towerRoofExpansionDistance
        cfg.supportTowerDiameter cfg.zLayerDistanceTower).2.2 := rfl
  rw [h, handleTowers_rem]

theorem layerStep_roofs (o : ℕ → Polygons) (cfg : Config) (L : ℕ) (st : SweepState) :
    (layerStep o cfg L st).2.towerRoofs =
      ((st.towerRoofs.image (fun r => dilate r cfg.towerRoofExpansionDistance)).filter
        (fun r => diamD r < cfg.supportTowerDiameter)) ∪
        towerActivation st.overhangRemaining L cfg.zLayerDistanceTower := by
  have h : (layerStep o cfg L st).2.towerRoofs =
      (handleTowers (join st.supportAbove (fullOverhang o cfg.maxDistFromLowerLayer L) cfg)
        st.towerRoofs st.overhangRemaining L cfg.towerRoofExpansionDistance
        cfg.supportTowerDiameter cfg.zLayerDistanceTower).2.1 := rfl
  rw [h, handleTowers_roofs]

theorem dropWhile_step_desc (z : ℕ) :
    ∀ (ds : List OverhangEntry),
      ds.Pairwise (fun a b => b.1 + z < a.1 + z) → ∀ c : ℕ,
      (match ds.dropWhile (fun e => decide (c + 1 ≤ e.1 + z)) with
       | [] => ([] : List OverhangEntry)
       | e :: rest => if e.1 + z = c then rest else e :: rest) =
      ds.dropWhile (fun e => decide (c ≤ e.1 + z)) := by
  intro ds
  induction ds with
  | nil => intro _ c; rfl
  | cons a l ih =>
      intro hpw c
      by_cases h1 : c + 1 ≤ a.1 + z
      · rw [List.dropWhile_cons_of_pos (by simpa using h1),
          List.dropWhile_cons_of_pos (by simp; omega)]
        exact ih (List.Pairwise.of_cons hpw) c
      · rw [List.dropWhile_cons_of_neg (by simpa using h1)]
        have hred : (match a :: l with
            | [] => ([] : List OverhangEntry)
            | e :: rest => if e.1 + z = c then rest else e :: rest) =
            if a.1 + z = c then l else a :: l := rfl
        rw [hred]
        by_cases h2 : a.1 + z = c
        · rw [if_pos h2, List.dropWhile_cons_of_pos (by simp; omega)]
          cases l with
          | nil => rfl
          | cons b m =>
              have hb : b.1 + z < a.1 + z := (List.pairwise_cons.mp hpw).1 b
                (List.mem_cons_self b m)
              rw [List.dropWhile_cons_of_neg (by simp; omega)]
        · rw [if_neg h2, List.dropWhile_cons_of_neg (by simp; omega)]

theorem initState_desc {ohs : List OverhangEntry} {z lc : ℕ}
    (hpw : ohs.Pairwise (fun a b => a.1 < b.1)) :
    (initState ohs z lc).overhangRemaining.Pairwise
      (fun a b => b.1 + z < a.1 + z) := by
  simp only [initState]
  rw [List.pairwise_reverse]
  exact (hpw.filter _).imp (fun h => by omega)

theorem initState_mem_lt {ohs : List OverhangEntry} {z lc : ℕ} {e : OverhangEntry}
    (he : e ∈ (initState ohs z lc).overhangRemaining) : e.1 + z < lc := by
  simp only [initState, List.mem_reverse, List.mem_filter] at he
  exact of_decide_eq_true he.2

theorem initState_mem_iff {ohs : List OverhangEntry} {z lc : ℕ} {e : OverhangEntry} :
    e ∈ (initState ohs z lc).overhangRemaining ↔ e ∈ ohs ∧ e.1 + z < lc := by
  simp only [initState, List.mem_reverse, List.mem_filter, decide_eq_true_eq]

theorem remBefore_inv (o : ℕ → Polygons) (cfg : Config)
    (ohs : List OverhangEntry) (lc : ℕ)
    (hpw : ohs.Pairwise (fun a b => a.1 < b.1)) :
    ∀ k, k ≤ lc →
      (stateBefore o cfg ohs lc k).overhangRemaining =
        (initState ohs cfg.zLayerDistanceTower lc).overhangRemaining.dropWhile
          (fun e => decide (lc - k ≤ e.1 + cfg.zLayerDistanceTower)) := by
  intro k
  induction k with
  | zero =>
      intro _
      simp only [stateBefore]
      symm
      rw [List.dropWhile_eq_self_iff]
      intro hl
      have hmem := List.get_mem
        (initState ohs cfg.zLayerDistanceTower lc).overhangRemaining 0 hl
      have hlt := initState_mem_lt hmem
      simp only [decide_eq_true_eq]
      omega
  | succ n ih =>
      intro hk
      have hrem := ih (by omega)
      have hstep : (stateBefore o cfg ohs lc (n + 1)).overhangRemaining =
          match (stateBefore o cfg ohs lc n).overhangRemaining with
          | [] => []
          | e :: rest =>
              if e.1 + cfg.zLayerDistanceTower = lc - 1 - n then rest
              else e :: rest := by
        simp only [stateBefore]
        exact layerStep_rem o cfg (lc - 1 - n) (stateBefore o cfg ohs lc n)
      have hc1 : lc - n = (lc - 1 - n) + 1 := by omega
      have hc2 : lc - (n + 1) = lc - 1 - n := by omega
      rw [hstep, hrem, hc1, hc2]
      exact dropWhile_step_desc cfg.zLayerDistanceTower _ (initState_desc hpw)
        (lc - 1 - n)

theorem dropWhile_head_of_mem {z L : ℕ} :
    ∀ (ds : List OverhangEntry),
      ds.Pairwise (fun a b => b.1 + z < a.1 + z) → ∀ {e : OverhangEntry},
      e ∈ ds → e.1 + z = L →
      ∃ rest, ds.dropWhile (fun x => decide (L + 1 ≤ x.1 + z)) = e :: rest := by
  intro ds
  induction ds with
  | nil =>
      intro _ e he
      exact absurd he (List.not_mem_nil e)
  | cons a l ih =>
      intro hpw e he hL
      rcases List.mem_cons.mp he with rfl | hmem
      · refine ⟨l, ?_⟩
        rw [List.dropWhile_cons_of_neg (by simp; omega)]
      · have hta : e.1 + z < a.1 + z := (List.pairwise_cons.mp hpw).1 e hmem
        rw [List.dropWhile_cons_of_pos (by simp; omega)]
        exact ih (List.Pairwise.of_cons hpw) hmem hL

theorem remBefore_eq_dropWhile (o : ℕ → Polygons) (cfg : Config)
    (ohs : List OverhangEntry) {lc L : ℕ}
    (hpw : ohs.Pairwise (fun a b => a.1 < b.1)) (hL : L < lc) :
    remBefore o cfg ohs lc L =
      (initState ohs cfg.zLayerDistanceTower lc).overhangRemaining.dropWhile
        (fun x => decide (L + 1 ≤ x.1 + cfg.zLayerDistanceTower)) := by
  have h := remBefore_inv o cfg ohs lc hpw (lc - 1 - L) (by omega)
  rw [remBefore, h]
  have h2 : lc - (lc - 1 - L) = L + 1 := by omega
  rw [h2]

theorem activatedAt_iff (o : ℕ → Polygons) (cfg : Config)
    (ohs : List OverhangEntry) {lc L : ℕ}
    (hpw : ohs.Pairwise (fun a b => a.1 < b.1)) (hL : L < lc)
    {e : OverhangEntry} :
    activatedAt o cfg ohs lc L = some e ↔
      e ∈ ohs ∧ e.1 + cfg.zLayerDistanceTower = L := by
  have hrb := remBefore_eq_dropWhile o cfg ohs hpw hL
  constructor
  · intro h
    unfold activatedAt at h
    cases hm : remBefore o cfg ohs lc L with
    | nil =>
        rw [hm] at h
        exact absurd h (Option.noConfusion)
    | cons a rest =>
        rw [hm] at h
        have h2 : (if a.1 + cfg.zLayerDistanceTower = L then some a else none) =
            some e := h
        by_cases hcond : a.1 + cfg.zLayerDistanceTower = L
        · rw [if_pos hcond] at h2
          obtain rfl : a = e := Option.some_inj.mp h2
          refine ⟨?_, hcond⟩
          have hmem : a ∈ remBefore o cfg ohs lc L := by
            rw [hm]
            exact List.mem_cons_self _ _
          rw [hrb] at hmem
          have hini : a ∈ (initState ohs cfg.zLayerDistanceTower lc).overhangRemaining :=
            (List.dropWhile_sublist _).subset hmem
          exact (initState_mem_iff.mp hini).1
        · rw [if_neg hcond] at h2
          exact absurd h2 Option.noConfusion
  · rintro ⟨hmem, htarget⟩
    have hds : e ∈ (initState ohs cfg.zLayerDistanceTower lc).overhangRemaining :=
      initState_mem_iff.mpr ⟨hmem, by omega⟩
    obtain ⟨rest, hrest⟩ :=
      dropWhile_head_of_mem _ (initState_desc hpw) hds htarget
    unfold activatedAt
    rw [hrb, hrest]
    show (if e.1 + cfg.zLayerDistanceTower = L then some e else none) = some e
    rw [if_pos htarget]

theorem length_dropWhile_le_of_imp {α : Type} {p q : α → Bool}
    (h : ∀ x, q x = true → p x = true) :
    ∀ l : List α, (l.dropWhile p).length ≤ (l.dropWhile q).length := by
  intro l
  induction l with
  | nil => simp
  | cons a l ih =>
      by_cases hq : q a = true
      · rw [List.dropWhile_cons_of_pos hq, List.dropWhile_cons_of_pos (h a hq)]
        exact ih
      · rw [List.dropWhile_cons_of_neg hq]
        exact (List.dropWhile_sublist _).length_le

theorem remBefore_mono (o : ℕ → Polygons) (cfg : Config)
    (ohs : List OverhangEntry) {lc L1 L2 : ℕ}
    (hpw : ohs.Pairwise (fun a b => a.1 < b.1)) (h12 : L1 ≤ L2) (hL2 : L2 < lc) :
    (remBefore o cfg ohs lc L1).length ≤ (remBefore o cfg ohs lc L2).length := by
  rw [remBefore_eq_dropWhile o cfg ohs hpw (by omega),
    remBefore_eq_dropWhile o cfg ohs hpw hL2]
  refine length_dropWhile_le_of_imp ?_ _
  intro x hx
  simp only [decide_eq_true_eq] at hx ⊢
  omega

theorem activation_seeds (o : ℕ → Polygons) (cfg : Config)
    (ohs : List OverhangEntry) {lc L : ℕ} (hL : L < lc) {e : OverhangEntry}
    (ha : activatedAt o cfg ohs lc L = some e) :
    e.2 ⊆ (stateBefore o cfg ohs lc (lc - L)).towerRoofs := by
  have hidx : lc - L = (lc - 1 - L) + 1 := by omega
  rw [hidx]
  simp only [stateBefore]
  rw [layerStep_roofs]
  have hlayer : lc - 1 - (lc - 1 - L) = L := by omega
  rw [hlayer]
  have hact : towerActivation
      (stateBefore o cfg ohs lc (lc - 1 - L)).overhangRemaining L
      cfg.zLayerDistanceTower = e.2 := by
    unfold activatedAt at ha
    cases hm : remBefore o cfg ohs lc L with
    | nil =>
        rw [hm] at ha
        exact absurd ha Option.noConfusion
    | cons a rest =>
        rw [hm] at ha
        have ha2 : (if a.1 + cfg.zLayerDistanceTower = L then some a else none) =
            some e := ha
        by_cases hcond : a.1 + cfg.zLayerDistanceTower = L
        · rw [if_pos hcond] at ha2
          obtain rfl : a = e := Option.some_inj.mp ha2
          rw [remBefore] at hm
          rw [hm]
          show (if a.1 + cfg.zLayerDistanceTower = L then a.2 else ∅) = a.2
          rw [if_pos hcond]
        · rw [if_neg hcond] at ha2
          exact absurd ha2 Option.noConfusion
  rw [hact]
  exact Finset.subset_union_right

/-- C3 (amended): each overhang point whose activation layer (origin layer
plus `z_layer_distance_tower`) lies within the sweep range is activated by
the tower manager at exactly that layer and no other; an overhang point
recorded too close to the top of the print (activation layer at or beyond
`layer_count`) is never activated.  The cursor over the layer-ordered point
list only ever advances as the sweep descends; an activated point's regions
are seeded as tower roofs for the next lower layer; and at every layer each
active roof is offset outward by `towerRoofExpansionDistance` and unioned into
that layer's support, after which exactly the expanded roofs still below
`supportTowerDiameter` stay on the active roof list (joined by the freshly
seeded ones), the rest being carried on only as ordinary bulk support. -/
theorem C3_towers_amended (o : ℕ → Polygons) (cfg : Config) (lc : ℕ) :
    (∀ e ∈ meshOverhangPoints o cfg lc, ∀ L, L < lc →
        (activatedAt o cfg (meshOverhangPoints o cfg lc) lc L = some e ↔
          L = e.1 + cfg.zLayerDistanceTower)) ∧
    (∀ L1 L2, L1 ≤ L2 → L2 < lc →
        (remBefore o cfg (meshOverhangPoints o cfg lc) lc L1).length ≤
          (remBefore o cfg (meshOverhangPoints o cfg lc) lc L2).length) ∧
    (∀ L, L < lc → ∀ e,
        activatedAt o cfg (meshOverhangPoints o cfg lc) lc L = some e →
        e.2 ⊆ (stateBefore o cfg (meshOverhangPoints o cfg lc) lc (lc - L)).towerRoofs) ∧
    (∀ (S : Polygons) (roofs : Finset Polygons) (rem : List OverhangEntry) (L : ℕ),
        S ⊆ (handleTowers S roofs rem L cfg.towerRoofExpansionDistance
            cfg.supportTowerDiameter cfg.zLayerDistanceTower).1 ∧
        (∀ r ∈ roofs, dilate r cfg.towerRoofExpansionDistance ⊆
            (handleTowers S roofs rem L cfg.towerRoofExpansionDistance
              cfg.supportTowerDiameter cfg.zLayerDistanceTower).1) ∧
        (handleTowers S roofs rem L cfg.towerRoofExpansionDistance
            cfg.supportTowerDiameter cfg.zLayerDistanceTower).2.1 =
          ((roofs.image (fun r => dilate r cfg.towerRoofExpansionDistance)).filter
            (fun r => diamD r < cfg.supportTowerDiameter)) ∪
            towerActivation rem L cfg.zLayerDistanceTower) := by
  have hpw := meshOverhangPoints_pairwise o cfg lc
  refine ⟨?_, ?_, ?_, ?_⟩
  · intro e he L hL
    rw [activatedAt_iff o cfg _ hpw hL]
    constructor
    · intro h
      exact h.2.symm
    · intro h
      exact ⟨he, h.symm⟩
  · intro L1 L2 h12 hL2
    exact remBefore_mono o cfg _ hpw h12 hL2
  · intro L hL e ha
    exact activation_seeds o cfg _ hL ha
  · intro S roofs rem L
    refine ⟨?_, ?_, handleTowers_roofs S roofs rem L _ _ _⟩
    · rw [handleTowers_fst]
      exact Finset.subset_union_left
    · intro r hr
      rw [handleTowers_fst]
      refine subset_trans ?_ Finset.subset_union_right
      have hmem : dilate r cfg.towerRoofExpansionDistance ∈
          roofs.image (fun r2 => dilate r2 cfg.towerRoofExpansionDistance) :=
        Finset.mem_image_of_mem _ hr
      exact Finset.le_sup (f := id) hmem

/-- The tower scenario configuration: expansion 1, tower diameter 2, one
layer of clearance between an overhang point and its roof. -/
def towerCfg : Config := ⟨0, 1, 0, 0, 0, false, 0, 0, 0, 1, 0, 1, 2, 1⟩

/-- A mesh with a single point-like overhang at layer 1 of 4. -/
def towerOutline : ℕ → Polygons := fun n =>
  if n = 1 then {((5 : ℤ), (5 : ℤ))} else ∅

/-- A mesh with a single point-like overhang at the top layer (3 of 4). -/
def towerTopOutline : ℕ → Polygons := fun n =>
  if n = 3 then {((5 : ℤ), (5 : ℤ))} else ∅

theorem C3_towers_amended_witness :
    activatedAt towerOutline towerCfg
      (meshOverhangPoints towerOutline towerCfg 4) 4 2 =
      some (1, {({((5 : ℤ), (5 : ℤ))} : Polygons)}) :=
  ((C3_towers_amended towerOutline towerCfg 4).1
    (1, {({((5 : ℤ), (5 : ℤ))} : Polygons)}) (by decide) 2 (by decide)).mpr (by decide)

/-- C3 counterexample: an overhang point recorded at the top layer of the
mesh has activation layer `origin + z_layer_distance_tower = layer_count`,
beyond the sweep, and is activated at no layer at all — so not every
recorded overhang point is activated. -/
theorem C3_counterexample :
    (3, ({({((5 : ℤ), (5 : ℤ))} : Polygons)} : Finset Polygons)) ∈
      meshOverhangPoints towerTopOutline towerCfg 4 ∧
    ∀ L, L < 4 →
      activatedAt towerTopOutline towerCfg
        (meshOverhangPoints towerTopOutline towerCfg 4) 4 L ≠
        some (3, ({({((5 : ℤ), (5 : ℤ))} : Polygons)} : Finset Polygons)) := by
  decide

theorem C2_layer_dependency_amended_witness :
    supportAtLayerWith depOutline depCfg [] 3 2 =
      supportAtLayerWith depOutlineLow depCfg [] 3 2 :=
  C2_layer_dependency_amended depOutline depOutlineLow depCfg [] 3 2 (by decide)
    (by decide)
    (fun j hj => by
      cases j with
      | zero => omega
      | succ n => rfl)

end CuraSupport
